import Mathlib

/-!
# Verification of the Full-Stack-News-WebApp ingestion pipeline

Shallow embedding of the news-ingestion code:
* `news/providers/newsapiorg/validators.py` (`url_validator`)
* `news/providers/newsapiorg/helpers.py` (`normalize_articles`)
* `news/services/keyword_extraction/extractor.py` (`KeywordExtractorService`)
* `news/services/language_detect/detect.py` / `helpers.py` (`detect_language`, `clean_text`)
* `news/management/commands/fetch_provider_articles.py` (enrichment, upsert, retry runner)
* `news/management/commands/fetch_provider_sources.py` (incremental source persistence)

Python strings are modelled over their character lists; the model restricts the
Unicode-aware Python character classes (`\d`, `\w`, `str.isdigit`, `re.IGNORECASE`
case folding) to their ASCII behaviour, which is the range provider data exercises.
Fallible Python steps are modelled with `Except`; machine floats never undergo
arithmetic in the verified paths, so scores/confidences are carried as `ℚ`.
-/

namespace NewsApp

/-! ## Python-style character and string primitives -/

/-- ASCII decimal digit: models `\d` (and the reachable cases of `str.isdigit`). -/
def isAsciiDigit (c : Char) : Bool := '0' ≤ c && c ≤ '9'

/-- ASCII letter: models `[A-Z]` under `re.IGNORECASE`. -/
def isAsciiAlpha (c : Char) : Bool := ('A' ≤ c && c ≤ 'Z') || ('a' ≤ c && c ≤ 'z')

/-- Models `[A-Z0-9]` under `re.IGNORECASE`. -/
def isAlnumChar (c : Char) : Bool := isAsciiAlpha c || isAsciiDigit c

/-- Models `[A-Z0-9-]` under `re.IGNORECASE`. -/
def isLabelChar (c : Char) : Bool := isAlnumChar c || c = '-'

/-- Python whitespace as used by `str.split()` / `str.strip()` (ASCII fragment). -/
def isPySpace (c : Char) : Bool :=
  c = ' ' || c = '\t' || c = '\n' || c = '\x0d' || c = '\x0b' || c = '\x0c'

/-- `str.lower` on one character (ASCII fragment). -/
def pyLowerChar (c : Char) : Char := c.toLower

/-- `str.lower` on a string (ASCII fragment). -/
def pyLower (s : String) : String := String.mk (s.data.map pyLowerChar)

/-- `s.split('.')`: split at every dot; empty pieces are kept (`"a..b" → ["a","","b"]`). -/
def splitOnDot : List Char → List (List Char)
  | [] => [[]]
  | '.' :: rest => [] :: splitOnDot rest
  | c :: rest =>
    match splitOnDot rest with
    | [] => [[c]]
    | w :: ws => (c :: w) :: ws

/-- `str.isdigit` on a character list: non-empty and all digits
(`"".isdigit()` is `False` in Python). -/
def pyIsdigitChars (l : List Char) : Bool := !l.isEmpty && l.all isAsciiDigit

/-- Python `int(s)` on the strings reachable here (digit runs; empty raises `ValueError`). -/
def pyInt (l : List Char) : Except Unit Nat :=
  if !l.isEmpty && l.all isAsciiDigit then
    .ok (l.foldl (fun n c => 10 * n + (c.toNat - 48)) 0)
  else
    .error ()

/-! ## `url_validator` (news/providers/newsapiorg/validators.py)

The compiled pattern is
`^https?://(?:(?:[A-Z0-9](?:[A-Z0-9-]{0,61}[A-Z0-9])?\.)+[A-Z]{2,6}\.?|localhost|\d{1,3}\.\d{1,3}\.\d{1,3}\.\d{1,3})(?::\d+)?(?:/.*)?$`
with `re.IGNORECASE`.  The recognizer below decides membership in that anchored
regular language piece by piece (scheme, host alternation, optional port,
optional path); no dot can occur inside a label or octet, so splitting the host
on dots decomposes a match uniquely. -/

/-- Consume `://` literally. -/
def expectColonSlashes : List Char → Option (List Char)
  | ':' :: '/' :: '/' :: r => some r
  | _ => none

/-- Consume `https?://` case-insensitively (the `s` is optional and greedy,
which is unambiguous because `s ≠ :`). -/
def stripSchemeCI (cs : List Char) : Option (List Char) :=
  match cs with
  | c1 :: c2 :: c3 :: c4 :: rest =>
    if [c1, c2, c3, c4].map pyLowerChar = ['h', 't', 't', 'p'] then
      match rest with
      | c5 :: r2 => if pyLowerChar c5 = 's' then expectColonSlashes r2 else expectColonSlashes rest
      | [] => none
    else none
  | _ => none

/-- One domain label `[A-Z0-9](?:[A-Z0-9-]{0,61}[A-Z0-9])?`:
length 1–63, first and last alphanumeric, interior may contain `-`. -/
def isLabel : List Char → Bool
  | [] => false
  | [c] => isAlnumChar c
  | c :: rest =>
    isAlnumChar c && rest.length ≤ 62 && rest.all isLabelChar &&
      isAlnumChar (rest.getLastD 'x')

/-- Top-level domain `[A-Z]{2,6}`. -/
def isTld (t : List Char) : Bool := 2 ≤ t.length && t.length ≤ 6 && t.all isAsciiAlpha

/-- The dotted domain alternative `(?:label\.)+[A-Z]{2,6}\.?`. -/
def isDomain (h : List Char) : Bool :=
  let ps := splitOnDot h
  let ps := if ps.getLastD ['x'] = [] then ps.dropLast else ps
  decide (2 ≤ ps.length) && ps.dropLast.all isLabel && isTld (ps.getLastD [])

/-- The dotted-quad alternative `\d{1,3}\.\d{1,3}\.\d{1,3}\.\d{1,3}`. -/
def isDottedQuad (h : List Char) : Bool :=
  let ps := splitOnDot h
  ps.length = 4 && ps.all (fun p => !p.isEmpty && p.length ≤ 3 && p.all isAsciiDigit)

/-- `localhost`, case-insensitively. -/
def isLocalhostCI (h : List Char) : Bool :=
  h.map pyLowerChar = ['l', 'o', 'c', 'a', 'l', 'h', 'o', 's', 't']

/-- The host alternation of the pattern. -/
def hostOk (h : List Char) : Bool := isDomain h || isLocalhostCI h || isDottedQuad h

/-- Host followed by the optional port `(?::\d+)?`. -/
def hostportOk (hp : List Char) : Bool :=
  let h := hp.takeWhile (· ≠ ':')
  let r := hp.dropWhile (· ≠ ':')
  hostOk h &&
    match r with
    | [] => true
    | ':' :: ds => !ds.isEmpty && ds.all isAsciiDigit
    | _ => false

/-- `pattern.match(url)` for the anchored URL pattern: scheme, then everything
before the first `/` must be host+port, and any remainder starts with `/`
(which `(?:/.*)?$` always accepts). -/
def regexMatch (cs : List Char) : Bool :=
  match stripSchemeCI cs with
  | none => false
  | some rest => hostportOk (rest.takeWhile (· ≠ '/'))

/-- `urlparse(url).hostname` on strings accepted by the pattern: the text
between the scheme and the first `/`, with any `:port` suffix removed,
lowercased; `None` when empty.  (Only consulted after `pattern.match`
succeeds, where this agrees with `urllib.parse`.) -/
def urlHostname (s : String) : Option String :=
  match stripSchemeCI s.data with
  | none => none
  | some rest =>
    let h := (rest.takeWhile (· ≠ '/')).takeWhile (· ≠ ':')
    if h.isEmpty then none else some (String.mk (h.map pyLowerChar))

/-- `hostname.replace('.', '')`. -/
def stripDots (h : String) : List Char := h.data.filter (· ≠ '.')

/-- The private/loopback-range test on the parsed octets. -/
def privateIP (ipParts : List Nat) : Bool :=
  ipParts.getD 0 0 = 10 ||
    (ipParts.getD 0 0 = 172 && 16 ≤ ipParts.getD 1 0 && ipParts.getD 1 0 ≤ 31) ||
    (ipParts.getD 0 0 = 192 && ipParts.getD 1 0 = 168) ||
    ipParts.getD 0 0 = 127

/-- The checks `url_validator` performs on the extracted hostname
(lines 30–51 of validators.py). `int()` failures surface as `.error`. -/
def hostnameChecks (h : String) : Except Unit Bool :=
  if h = "" then .ok false
  else if pyLower h = "localhost" then .ok false
  else if pyIsdigitChars (stripDots h) then
    match (splitOnDot h.data).mapM pyInt with
    | .error e => .error e
    | .ok ipParts =>
      -- octets are parsed from digit runs, so `octet < 0` cannot occur
      if ipParts.length ≠ 4 || ipParts.any (fun o => 255 < o) then .ok false
      else if privateIP ipParts then .ok false
      else .ok true
  else .ok true

/-- Body of `url_validator` inside its `try`. -/
def url_validator_checked (s : String) : Except Unit Bool :=
  if regexMatch s.data then
    match urlHostname s with
    | none => .ok false
    | some h => hostnameChecks h
  else .ok false

/-- The `except Exception: return False` wrapper. -/
def exceptToBool (e : Except Unit Bool) : Bool :=
  match e with
  | .ok b => b
  | .error _ => false

/-- `url_validator(url)`: every internal exception is caught and yields `False`. -/
def url_validator (s : String) : Bool :=
  exceptToBool (url_validator_checked s)

/-! ## Keyword extraction (news/services/keyword_extraction/extractor.py)

`KeywordExtractorService.extract_keywords` delegates to the YAKE library; the
library call is an external collaborator and is modelled as a function
`String → Except Unit (List (String × ℚ))` (`.error` = the call raised).
Keyword scores are floats in Python but are only carried, never computed with,
so they are modelled as `ℚ`. -/

/-- `str.strip()` (ASCII whitespace fragment). -/
def pyStripChars (l : List Char) : List Char :=
  ((l.dropWhile isPySpace).reverse.dropWhile isPySpace).reverse

/-- `str.strip()` on a `String`. -/
def pyStrip (s : String) : String := String.mk (pyStripChars s.data)

/-- Helper for `str.split()`: accumulate the current word (reversed). -/
def pySplitAux : List Char → List Char → List String
  | [], acc => if acc.isEmpty then [] else [String.mk acc.reverse]
  | c :: rest, acc =>
    if isPySpace c then
      if acc.isEmpty then pySplitAux rest []
      else String.mk acc.reverse :: pySplitAux rest []
    else pySplitAux rest (c :: acc)

/-- `str.split()` with no arguments: split on whitespace runs, no empty words. -/
def pySplitWs (s : String) : List String := pySplitAux s.data []

/-- `extract_unique_long_words(text, min_length=5, max_keywords=10)`:
`list(set(w for w in text.split() if len(w) >= min_length))[:max_keywords]`.
The Python `set` iteration order is unspecified; it is modelled as `List.dedup`
(every property proved below is order-independent). -/
def extract_unique_long_words (text : String)
    (min_length : Nat := 5) (max_keywords : Nat := 10) : List String :=
  (((pySplitWs text).filter (fun w => min_length ≤ w.length)).dedup).take max_keywords

/-- The dynamically typed `text` argument of `extract_keywords`:
either a Python `str` or any non-string object. -/
inductive TextInput where
  | ofStr (s : String)
  | notStr
deriving DecidableEq

/-- `KeywordExtractorService.extract_keywords` (lines 57–79), with the YAKE
call abstracted as `yakeExtract`.  `.error ()` models raising
`KeywordExtractionError`. -/
def extract_keywords (yakeExtract : String → Except Unit (List (String × ℚ)))
    (text : TextInput) : Except Unit (List (String × ℚ)) :=
  match text with
  | .notStr => .ok []
  | .ofStr s =>
    if pyStrip s = "" then .ok []
    else
      match yakeExtract s with
      | .ok kws => .ok kws
      | .error _ =>
        let ws := extract_unique_long_words s
        if ws.isEmpty then .error () else .ok (ws.map (fun w => (w, (0 : ℚ))))

/-! ## Language detection (news/services/language_detect/{helpers,detect}.py)

The fastText model (`get_model` + `model.predict`) is an external collaborator,
modelled as `predict : String → Except Unit (String × ℚ)`; `.error` covers both
a model-load failure and a predict failure.  Confidences are carried as `ℚ`. -/

/-- `\w` (ASCII fragment). -/
def isWordChar (c : Char) : Bool := isAlnumChar c || c = '_'

/-- The character class kept by `clean_text`’s second `re.sub`:
`[\w\s]` plus the listed Unicode script ranges. -/
def inCleanRanges (c : Char) : Bool :=
  isWordChar c || isPySpace c ||
    (0xC0 ≤ c.toNat && c.toNat ≤ 0x24F) || (0x600 ≤ c.toNat && c.toNat ≤ 0x6FF) ||
    (0x400 ≤ c.toNat && c.toNat ≤ 0x4FF) || (0x4E00 ≤ c.toNat && c.toNat ≤ 0x9FFF) ||
    (0x3040 ≤ c.toNat && c.toNat ≤ 0x30FF) || (0x900 ≤ c.toNat && c.toNat ≤ 0x97F) ||
    (0x370 ≤ c.toNat && c.toNat ≤ 0x3FF) || (0x590 ≤ c.toNat && c.toNat ≤ 0x5FF) ||
    (0xE00 ≤ c.toNat && c.toNat ≤ 0xE7F)

theorem length_dropWhile_le_length (p : Char → Bool) (l : List Char) :
    (l.dropWhile p).length ≤ l.length := by
  have h := congrArg List.length (List.takeWhile_append_dropWhile (p := p) (l := l))
  simp only [List.length_append] at h
  omega

/-- `re.sub(r"http\S+", "", text)`: remove every `http` followed by a non-empty
run of non-whitespace (left-to-right, non-overlapping, greedy).  The first
argument is `true` while inside a matched run that is being deleted; scanning
resumes at the terminating whitespace (no match can start mid-run, since a
match needs the literal `http` which the greedy `\S+` would have consumed). -/
def removeHttpRunsAux : Bool → List Char → List Char
  | _, [] => []
  | true, c :: rest =>
    if isPySpace c then c :: removeHttpRunsAux false rest
    else removeHttpRunsAux true rest
  | false, 'h' :: 't' :: 't' :: 'p' :: c :: rest =>
    if !isPySpace c then removeHttpRunsAux true rest
    else 'h' :: 't' :: 't' :: 'p' :: c :: removeHttpRunsAux false rest
  | false, c :: rest => c :: removeHttpRunsAux false rest

/-- `re.sub(r"http\S+", "", text)` from the start of the text. -/
def removeHttpRuns (l : List Char) : List Char := removeHttpRunsAux false l

/-- `clean_text(text)` (helpers.py): the UTF-8 encode/decode round-trip is the
identity on well-formed strings; then lowercase, drop `http…` runs, keep only
the allowed character ranges, and strip.  The `return None` branches require an
exception, which none of these steps can raise on a `str`, so the model is
total. -/
def clean_text (text : String) : String :=
  String.mk (pyStripChars ((removeHttpRuns (text.data.map pyLowerChar)).filter inCleanRanges))

/-- `label.replace("__label__", "")` (left-to-right, non-overlapping). -/
def removeLabelMarker : List Char → List Char
  | '_' :: '_' :: 'l' :: 'a' :: 'b' :: 'e' :: 'l' :: '_' :: '_' :: rest =>
    removeLabelMarker rest
  | c :: rest => c :: removeLabelMarker rest
  | [] => []

/-- `detect_language(text, min_confidence=0.7)` (detect.py), with the fastText
model call abstracted as `predict`.  Returns `(language?, confidence)`; note it
always returns a pair — never `None` — which matters to its caller. -/
def detect_language (predict : String → Except Unit (String × ℚ))
    (text : String) (min_confidence : ℚ := 7/10) : Option String × ℚ :=
  let t := clean_text text
  if t = "" then (none, 0)
  else
    -- `" ".join([text] * 3)` for short texts
    let t := if t.length < 20 then t ++ " " ++ t ++ " " ++ t else t
    match predict t with
    | .error _ => (none, 0)
    | .ok (label, confidence) =>
      let language := String.mk (removeLabelMarker label.data)
      if confidence < min_confidence then (none, confidence)
      else (some language, confidence)

/-! ## Normalization (news/providers/newsapiorg/helpers.py) -/

/-- Python truthiness of an optional string (`None` and `""` are falsy). -/
def pyFalsyStrOpt : Option String → Bool
  | none => true
  | some s => s = ""

/-- Raw provider article; every field may be absent (`None`).  `sourceName`
models `article.get("source", {}).get("name", None)`. -/
structure RawArticle where
  title : Option String
  url : Option String
  content : Option String
  description : Option String
  sourceName : Option String
  author : Option String
  urlToImage : Option String
  publishedAt : Option String
deriving DecidableEq

/-- Canonical article record as built by `normalize_articles` and then
enriched/persisted by `fetch_provider_articles`.  `published_date` is an
abstract timestamp; `language` is optional because the enrichment step can
assign Python `None` to it. -/
structure NormArticle where
  title : String
  content : String
  description : String
  url : String
  category : Option String
  source : String
  author : String
  url_to_image : Option String
  published_date : Int
  keywords : List (String × ℚ)
  language : Option String
deriving DecidableEq

/-- `str.rstrip()` (ASCII whitespace fragment). -/
def pyStripRight (l : List Char) : List Char :=
  (l.reverse.dropWhile isPySpace).reverse

/-- Consume a non-empty maximal run of `p`-characters (one `+`-quantified
character class of the marker pattern). -/
def consumeRun (p : Char → Bool) (l : List Char) : Option (List Char) :=
  if (l.takeWhile p).isEmpty then none else some (l.dropWhile p)

/-- Consume the literal `[+`. -/
def consumeOpenPlus : List Char → Option (List Char)
  | '[' :: '+' :: r => some r
  | _ => none

/-- Consume the literal `chars]`. -/
def consumeCharsBracket : List Char → Option (List Char)
  | 'c' :: 'h' :: 'a' :: 'r' :: 's' :: ']' :: r => some r
  | _ => none

/-- Try to consume one truncation marker `\s+\[\+\d+\s+chars\]` from the front;
returns the remainder on success.  The greedy `\s+`/`\d+` runs are forced (a
shorter run would leave a character the next literal cannot match), so the
recognizer is deterministic. -/
def matchTruncMarker (l : List Char) : Option (List Char) :=
  (consumeRun isPySpace l).bind fun r1 =>
    (consumeOpenPlus r1).bind fun r2 =>
      (consumeRun isAsciiDigit r2).bind fun r3 =>
        (consumeRun isPySpace r3).bind fun r4 =>
          consumeCharsBracket r4

theorem consumeRun_length {p : Char → Bool} {l r : List Char}
    (h : consumeRun p l = some r) : r.length < l.length := by
  unfold consumeRun at h
  split at h
  · exact absurd h (by simp)
  · rename_i hne
    simp only [Option.some.injEq] at h
    subst h
    have hl := congrArg List.length (List.takeWhile_append_dropWhile (p := p) (l := l))
    simp only [List.length_append] at hl
    have h1 : (l.takeWhile p).length ≠ 0 := by
      intro h0
      exact hne (by simpa using List.length_eq_zero.mp h0)
    omega

theorem consumeOpenPlus_length {l r : List Char} (h : consumeOpenPlus l = some r) :
    r.length < l.length := by
  unfold consumeOpenPlus at h
  split at h
  · simp only [Option.some.injEq] at h
    subst h
    simp only [List.length_cons]
    omega
  · exact absurd h (by simp)

theorem consumeCharsBracket_length {l r : List Char} (h : consumeCharsBracket l = some r) :
    r.length < l.length := by
  unfold consumeCharsBracket at h
  split at h
  · simp only [Option.some.injEq] at h
    subst h
    simp only [List.length_cons]
    omega
  · exact absurd h (by simp)

theorem matchTruncMarker_length {l r : List Char} (h : matchTruncMarker l = some r) :
    r.length < l.length := by
  unfold matchTruncMarker at h
  cases h1 : consumeRun isPySpace l with
  | none => simp [h1] at h
  | some r1 =>
    rw [h1] at h
    simp only [Option.some_bind] at h
    cases h2 : consumeOpenPlus r1 with
    | none => simp [h2] at h
    | some r2 =>
      rw [h2] at h
      simp only [Option.some_bind] at h
      cases h3 : consumeRun isAsciiDigit r2 with
      | none => simp [h3] at h
      | some r3 =>
        rw [h3] at h
        simp only [Option.some_bind] at h
        cases h4 : consumeRun isPySpace r3 with
        | none => simp [h4] at h
        | some r4 =>
          rw [h4] at h
          simp only [Option.some_bind] at h
          exact lt_trans (lt_trans (lt_trans (lt_trans
            (consumeCharsBracket_length h) (consumeRun_length h4))
            (consumeRun_length h3)) (consumeOpenPlus_length h2))
            (consumeRun_length h1)

/-- `re.sub(r'\s+\[\+\d+\s+chars\]', '', content)`. -/
def removeTruncationMarkers : List Char → List Char
  | [] => []
  | c :: rest =>
    match h : matchTruncMarker (c :: rest) with
    | some r => removeTruncationMarkers r
    | none => c :: removeTruncationMarkers rest
termination_by l => l.length
decreasing_by
  · exact matchTruncMarker_length h
  · simp

/-- `normalize_articles`’ per-record body (helpers.py lines 30–82), for one raw
record.  The date parser and the current time are abstract collaborators
(`parse_datetime` raising is `parseDT _ = none`); the URL check is abstract as
well (the import at the top of helpers.py resolves to Django’s `URLValidator`
class when Django is importable and to `validators.url_validator` otherwise).
`validate_url_and_date`’s `isinstance(published_date, datetime)` test is always
true here because both `parse_datetime` and `timezone.now()` produce datetimes. -/
def normalize_one (urlCheck : String → Bool) (parseDT : String → Option Int) (now : Int)
    (r : RawArticle) : Option NormArticle :=
  match r.title, r.url, r.description, r.sourceName, r.publishedAt with
  | some title, some url, some description, some sourceName, some published_raw =>
    -- `if not content and description:` — `None` and `""` are both falsy
    let content : Option String :=
      if pyFalsyStrOpt r.content && description ≠ "" then
        some (String.mk (pyStripRight (description.data.take 200)) ++ "...")
      else r.content
    match content with
    | none => none  -- `if content is None: continue`
    | some content0 =>
      let content1 := String.mk (removeTruncationMarkers content0.data)
      let published_date := if published_raw ≠ "" then (parseDT published_raw).getD now else now
      if !urlCheck url then none
      else
        some {
          title := title, content := content1, description := description,
          url := url, category := some "general", source := sourceName,
          -- `"author": author or source`
          author := match r.author with
            | some a => if a = "" then sourceName else a
            | none => sourceName,
          url_to_image := r.urlToImage,
          published_date := published_date,
          keywords := [], language := some "en" }
  | _, _, _, _, _ => none

/-- `normalize_articles` over a batch (the generator, run to completion). -/
def normalize_articles (urlCheck : String → Bool) (parseDT : String → Option Int)
    (now : Int) (raws : List RawArticle) : List NormArticle :=
  raws.filterMap (normalize_one urlCheck parseDT now)

/-- A raw record is missing one of the five critical fields. -/
def missingCriticalField (r : RawArticle) : Bool :=
  r.title.isNone || r.url.isNone || r.description.isNone ||
    r.sourceName.isNone || r.publishedAt.isNone

/-! ## Article enrichment and persistence
(news/management/commands/fetch_provider_articles.py)

The keyword extractor and language detector are injected, as in the Python code
(`keyword_extractor`, `detect_language`).  The shutdown check inside the
per-article loop is omitted: the model describes a cycle that runs to
completion.  The store is the `Article` table, a list of records whose `url`
column carries a unique constraint. -/

/-- `_prepare_article_keywords_and_language` (lines 290–319).
`extract` raising is its `.error` case; `detect_language` never raises.
Note the returned pair `lang_result` of `detect_language` is always truthy in
Python (it is a 2-tuple), so `language, confidence = lang_result` always
executes and `language` becomes the pair's first component — which is `None`
whenever detection failed or was below the confidence threshold. -/
def prepare_article_keywords_and_language
    (extract : String → Except Unit (List (String × ℚ)))
    (detectL : String → Option String × ℚ)
    (text : String) : List (String × ℚ) × Option String :=
  match extract text with
  | .error _ => ([], some "en")
  | .ok [] => ([], some "en")
  | .ok kws =>
    -- `if len(text) > 100: text = text[:100]`
    let t := if 100 < text.length then String.mk (text.data.take 100) else text
    let lang_result := detectL t
    (kws, lang_result.1)

/-- The per-article body of `process_fetch_cycle` (lines 233–257): build the
combined text, enrich, and either skip (`continue`) or keep the enriched
record with the lane's category.  On normalizer output the three content
fields are strings, so `article.get('title') or ''` is the identity. -/
def prepArticle (extract : String → Except Unit (List (String × ℚ)))
    (detectL : String → Option String × ℚ)
    (category : Option String) (a : NormArticle) : Option NormArticle :=
  let article_full_content := a.title ++ " " ++ a.description ++ " " ++ a.content
  let kl := prepare_article_keywords_and_language extract detectL article_full_content
  -- `if not keywords and not language: continue`
  if kl.1.isEmpty && pyFalsyStrOpt kl.2 then none
  else some { a with keywords := kl.1, language := kl.2, category := category }

/-- The prepared-articles accumulation loop of `process_fetch_cycle`. -/
def preparedArticles (extract : String → Except Unit (List (String × ℚ)))
    (detectL : String → Option String × ℚ)
    (category : Option String) (arts : List NormArticle) : List NormArticle :=
  arts.filterMap (prepArticle extract detectL category)

/-- Python `dict` insertion keyed by `key`: replace in place or append
(`d[k] = v` keeps the first-insertion position of `k`). -/
def dictUpsert {α : Type} (key : α → String) (a : α) : List α → List α
  | [] => [a]
  | b :: rest => if key b = key a then a :: rest else b :: dictUpsert key a rest

/-- `list({key(a): a for a in l}.values())`: one record per key, last
occurrence wins, first-insertion order. -/
def uniqueByKey {α : Type} (key : α → String) (l : List α) : List α :=
  l.foldl (fun d a => dictUpsert key a d) []

/-- `bulk_create(objs, ignore_conflicts=True)` against a store with a unique
constraint on `key`: each insertion succeeds or is silently skipped
independently. -/
def bulkCreateIgnoreConflicts {α : Type} (key : α → String)
    (store objs : List α) : List α :=
  objs.foldl (fun st a => if key a ∈ st.map key then st else st ++ [a]) store

/-- The persistence step of `process_fetch_cycle` (lines 259–286): dedup the
batch by url, drop urls already stored, bulk-insert the rest; `stored_count`
is `len(article_objs)`.  (The `try/except` around `bulk_create` catches only
database-level failures, which the pure store model does not produce.) -/
def articles_persist (store prepared_articles : List NormArticle) :
    List NormArticle × Nat :=
  if prepared_articles.isEmpty then (store, 0)
  else
    let unique_articles := uniqueByKey (fun a => a.url) prepared_articles
    let urls := unique_articles.map (fun a => a.url)
    let existing_urls := (store.map (fun a => a.url)).filter (fun u => u ∈ urls)
    let new_articles := unique_articles.filter (fun a => !(a.url ∈ existing_urls))
    (bulkCreateIgnoreConflicts (fun a => a.url) store new_articles, new_articles.length)

/-- One full `process_fetch_cycle` body after normalization: enrich each
normalized record, then persist. -/
def process_fetch_cycle_articles (extract : String → Except Unit (List (String × ℚ)))
    (detectL : String → Option String × ℚ) (category : Option String)
    (store : List NormArticle) (normalized : List NormArticle) :
    List NormArticle × Nat :=
  articles_persist store (preparedArticles extract detectL category normalized)

/-! ## Source persistence (news/management/commands/fetch_provider_sources.py)

In `process_fetch_cycle` there (lines 209–261) the whole persistence block is
indented inside the `for _source in sources:` loop, so it executes once per
record against the prefix `prepared` accumulated so far.  The provider's
`get_sources` pre-filters records with empty/`None` values, so the five fields
are modelled as plain strings.  The store is the `Source` table, whose `name`
column carries a unique constraint. -/

/-- A prepared source record (`name`, `url`, `category`, `language`,
`country`). -/
structure SourceRec where
  name : String
  url : String
  category : String
  language : String
  country : String
deriving DecidableEq

/-- The mutable-field comparison of the update loop
(`for field in ("url", "category", "language", "country")`). -/
def sourceFieldsDiffer (obj p : SourceRec) : Bool :=
  obj.url ≠ p.url || obj.category ≠ p.category ||
    obj.language ≠ p.language || obj.country ≠ p.country

/-- `Source.objects.get(name=...)` followed by field assignment and `save()`:
replace the first record with that name.  (`name` itself is never reassigned;
`p.name = obj.name` at every call site.) -/
def saveByName (p : SourceRec) : List SourceRec → List SourceRec
  | [] => []
  | obj :: rest => if obj.name = p.name then p :: rest else obj :: saveByName p rest

/-- The update loop of one iteration of the sources persistence block
(lines 240–253): for every prepared record whose name pre-existed this
iteration, fetch, compare, and save when changed, counting updates. -/
def sourcesUpdateLoop (existing_names : List String) (prepared : List SourceRec)
    (st : List SourceRec) (updated : Nat) : List SourceRec × Nat :=
  match prepared with
  | [] => (st, updated)
  | p :: rest =>
    if p.name ∈ existing_names then
      match st.find? (fun obj => obj.name = p.name) with
      | some obj =>
        if sourceFieldsDiffer obj p then
          sourcesUpdateLoop existing_names rest (saveByName p st) (updated + 1)
        else sourcesUpdateLoop existing_names rest st updated
      | none => sourcesUpdateLoop existing_names rest st updated  -- DoesNotExist: continue
    else sourcesUpdateLoop existing_names rest st updated

/-- One execution of the `if prepared:` persistence block (lines 226–258)
against the current prefix `prepared`; returns the new store and the
`(created, updated)` counts reported for this iteration. -/
def sourcesPersistBlock (st : List SourceRec) (prepared : List SourceRec) :
    List SourceRec × Nat × Nat :=
  if prepared.isEmpty then (st, 0, 0)
  else
    let names := prepared.map (fun p => p.name)
    let existing_names := (st.map (fun s => s.name)).filter (fun n => n ∈ names)
    let new_items := prepared.filter (fun p => !(p.name ∈ existing_names))
    let st1 := if new_items.isEmpty then st
               else bulkCreateIgnoreConflicts (fun s => s.name) st new_items
    let created := if new_items.isEmpty then 0 else new_items.length
    let upd := sourcesUpdateLoop existing_names prepared st1 0
    (upd.1, created, upd.2)

/-- The whole `for _source in sources:` loop: append each record to `prepared`
and run the persistence block on the prefix accumulated so far, totalling the
created/updated counts across iterations. -/
def sourcesCycleAux (st : List SourceRec) (prepared : List SourceRec) :
    List SourceRec → Nat → Nat → List SourceRec × Nat × Nat
  | [], created, updated => (st, created, updated)
  | p :: rest, created, updated =>
    let prepared' := prepared ++ [p]
    let step := sourcesPersistBlock st prepared'
    sourcesCycleAux step.1 prepared' rest (created + step.2.1) (updated + step.2.2)

/-- `process_fetch_cycle` of fetch_provider_sources.py, persistence portion. -/
def process_fetch_cycle_sources (store : List SourceRec) (sources : List SourceRec) :
    List SourceRec × Nat × Nat :=
  sourcesCycleAux store [] sources 0 0

/-! ## Retry runner (`run_with_retries`, fetch_provider_articles.py 183–202)

The shared shutdown `threading.Event` is modelled as a boolean flag observed at
discrete consultation instants: each `is_set()` call and each
`interruptible_sleep` consumes one instant, and `interruptible_sleep` returns
the flag's value during its wait.  `cycle a` tells whether attempt `a`'s
`process_fetch_cycle` call succeeds (`False` = it raised). -/

/-- Result of a `run_with_retries` execution: the returned boolean, the
instants at which a `process_fetch_cycle` attempt was started, and the instant
after the last flag consultation. -/
structure RetryResult where
  success : Bool
  attemptTimes : List Nat
  endTime : Nat
deriving DecidableEq

/-- The `for attempt in range(MAX_RETRIES)` loop, from attempt number
`attempt` at instant `t` with `remaining` iterations left.  Each iteration:
check `is_set`, sleep (interruptibly), run the cycle at the next instant, and
on failure sleep again unless this was the last attempt. -/
def runWithRetriesAux (flag : Nat → Bool) (cycle : Nat → Bool) :
    Nat → Nat → Nat → RetryResult
  | 0, _, t => ⟨false, [], t⟩
  | remaining + 1, attempt, t =>
    if flag t then ⟨false, [], t + 1⟩                 -- `if self.shutdown_requested.is_set()`
    else if flag (t + 1) then ⟨false, [], t + 2⟩      -- pre-attempt `interruptible_sleep`
    else if cycle attempt then ⟨true, [t + 2], t + 3⟩ -- `process_fetch_cycle` succeeded
    else if remaining = 0 then ⟨false, [t + 2], t + 3⟩  -- last attempt: loop ends, `return False`
    else if flag (t + 3) then ⟨false, [t + 2], t + 4⟩ -- inter-attempt `interruptible_sleep`
    else
      let r := runWithRetriesAux flag cycle remaining (attempt + 1) (t + 4)
      ⟨r.success, (t + 2) :: r.attemptTimes, r.endTime⟩

/-- `MAX_RETRIES = 3`. -/
def MAX_RETRIES : Nat := 3

/-- `run_with_retries`, starting at instant 0. -/
def run_with_retries (flag : Nat → Bool) (cycle : Nat → Bool) : RetryResult :=
  runWithRetriesAux flag cycle MAX_RETRIES 0 0

/-- The shutdown flag is set-once: once observed set it stays set. -/
def MonotoneFlag (flag : Nat → Bool) : Prop :=
  ∀ t t' : Nat, t ≤ t' → flag t = true → flag t' = true

/-! ## Store-inspection helpers used to state the persistence claims -/

/-- The batch `articles_persist` actually inserts: the url-deduplicated batch
restricted to urls not already stored.  (In the code the filter tests
membership in `existing_urls`, the stored urls restricted to the batch's urls;
for batch members the two tests agree — proved in `articles_persist_spec`.) -/
def insertedBatch (store B : List NormArticle) : List NormArticle :=
  (uniqueByKey (fun x => x.url) B).filter
    (fun a => !(a.url ∈ store.map (fun x => x.url)))

/-- The stored entity with natural key `k` (first match; stores with a unique
constraint on `key` have at most one). -/
def lookupKey {α : Type} (key : α → String) (k : String) (l : List α) : Option α :=
  l.find? (fun a => key a = k)

/-- The last record in a batch carrying natural key `k`. -/
def lastOcc {α : Type} (key : α → String) (k : String) (l : List α) : Option α :=
  (l.filter (fun a => key a = k)).getLast?

/-! ## Concrete sample data used to evaluate the model at specific inputs -/

/-- A concrete normalized article, as `normalize_articles` would emit it. -/
def sampleArticle : NormArticle :=
  { title := "Quarterly results", content := "Full text of the story",
    description := "A description", url := "https://example.com/a",
    category := some "general", source := "Example News", author := "Example News",
    url_to_image := none, published_date := 0, keywords := [], language := some "en" }

/-- The same article as `sampleArticle` (same natural key `url`) with a
different title: a later fetch of an already-stored url. -/
def sampleArticleV2 : NormArticle :=
  { sampleArticle with title := "Quarterly results, updated" }

/-- A fastText stub whose best label has confidence 1/2, below the 7/10
threshold: detection "succeeds" at the model level but is low-confidence. -/
def lowConfidencePredict : String → Except Unit (String × ℚ) :=
  fun _ => .ok ("__label__fr", 1/2)

/-- Two source records sharing the natural key `name` with different mutable
fields. -/
def sourceA1 : SourceRec :=
  { name := "Example Wire", url := "https://wire.example/1", category := "general",
    language := "en", country := "us" }

/-- Same `name` as `sourceA1`, different field values (the later occurrence). -/
def sourceA2 : SourceRec :=
  { name := "Example Wire", url := "https://wire.example/2", category := "business",
    language := "en", country := "gb" }

end NewsApp

section SanityChecks
open NewsApp

/- Concrete evaluations of the URL validator model on representative inputs. -/
example : url_validator "https://example.com/a" = true := by decide
example : url_validator "http://127.0.0.1" = false := by decide
example : url_validator "http://10.1.2.3/x" = false := by decide
example : url_validator "http://192.168.1.1:8080/x" = false := by decide
example : url_validator "https://localhost/x" = false := by decide
example : url_validator "http://LOCALHOST" = false := by decide
example : url_validator "https://1.2.3.4" = true := by decide
example : url_validator "http://999.1.1.1" = false := by decide
example : url_validator "notaurl" = false := by decide
example : url_validator "http://1.2.3.4.5" = false := by decide
example : urlHostname "http://EXAMPLE.com:80/x" = some "example.com" := by decide
end SanityChecks

namespace NewsApp

/-- C6: the URL validator rejects every URL whose (parsed) host is `127.0.0.1`,
`10.1.2.3`, `192.168.1.1` or `localhost`, and accepts `https://example.com/a`. -/
theorem C6_url_validator_ssrf_guard :
    url_validator "https://example.com/a" = true ∧
    ∀ (s h : String), urlHostname s = some h →
      (h = "127.0.0.1" ∨ h = "10.1.2.3" ∨ h = "192.168.1.1" ∨ h = "localhost") →
      url_validator s = false := by
  refine ⟨by decide, ?_⟩
  intro s h hh hcases
  unfold url_validator url_validator_checked
  by_cases hr : regexMatch s.data
  · rw [if_pos hr, hh]
    rcases hcases with h1 | h1 | h1 | h1 <;> subst h1 <;> decide
  · rw [if_neg hr]
    rfl

/-- Witness for C6 at a concrete blocked URL. -/
theorem C6_url_validator_ssrf_guard_witness : url_validator "http://127.0.0.1" = false :=
  C6_url_validator_ssrf_guard.2 "http://127.0.0.1" "127.0.0.1" (by decide) (Or.inl rfl)

/-- C9: `url_validator` is total (internal failures are caught and map to
`false`), and whenever it accepts a URL whose host consists of digits and dots,
that host parses into exactly four octets, each at most 255. -/
theorem C9_url_validator_total_octets :
    ∀ s : String,
      (url_validator s = true ∨ url_validator s = false) ∧
      (url_validator s = true → ∀ h : String, urlHostname s = some h →
        pyIsdigitChars (stripDots h) = true →
        ∃ parts : List Nat, (splitOnDot h.data).mapM pyInt = Except.ok parts ∧
          parts.length = 4 ∧ ∀ o ∈ parts, o ≤ 255) := by
  intro s
  refine ⟨by cases hv : url_validator s <;> simp, ?_⟩
  intro hv h hh hd
  unfold url_validator url_validator_checked at hv
  by_cases hr : regexMatch s.data
  · rw [if_pos hr] at hv
    simp only [hh] at hv
    unfold hostnameChecks at hv
    by_cases he : h = ""
    · rw [if_pos he] at hv; exact absurd hv (by decide)
    · rw [if_neg he] at hv
      by_cases hl : pyLower h = "localhost"
      · rw [if_pos hl] at hv; exact absurd hv (by decide)
      · rw [if_neg hl, if_pos hd] at hv
        cases hm : (splitOnDot h.data).mapM pyInt with
        | error e => simp only [hm] at hv; exact absurd hv (by simp [exceptToBool])
        | ok parts =>
          simp only [hm] at hv
          refine ⟨parts, rfl, ?_⟩
          by_cases hlen : parts.length ≠ 4 || parts.any (fun o => 255 < o)
          · rw [if_pos hlen] at hv; exact absurd hv (by decide)
          · simp only [Bool.or_eq_true, ne_eq, decide_eq_true_eq, List.any_eq_true,
              not_or, not_exists, not_and] at hlen
            push_neg at hlen
            obtain ⟨h4, hle⟩ := hlen
            refine ⟨h4, fun o ho => ?_⟩
            have := hle o ho
            omega
  · rw [if_neg hr] at hv
    exact absurd hv (by decide)

/-- Witness for C9 at a concrete accepted dotted-quad URL. -/
theorem C9_url_validator_total_octets_witness :
    ∃ parts : List Nat,
      (splitOnDot ("1.2.3.4" : String).data).mapM pyInt = Except.ok parts ∧
        parts.length = 4 ∧ ∀ o ∈ parts, o ≤ 255 :=
  (C9_url_validator_total_octets "https://1.2.3.4").2 (by decide) "1.2.3.4"
    (by decide) (by decide)

/-- C10: `extract_keywords` returns `[]` without raising on non-string or
whitespace-only input; when YAKE raises it returns up to 10 distinct words of
length ≥ 5 drawn from the text, each scored `0.0`, and raises
`KeywordExtractionError` exactly when that fallback list is empty. -/
theorem C10_extract_keywords_fallback :
    ∀ (yakeExtract : String → Except Unit (List (String × ℚ))) (text : TextInput),
      (text = .notStr → extract_keywords yakeExtract text = .ok []) ∧
      (∀ s, text = .ofStr s → pyStrip s = "" →
        extract_keywords yakeExtract text = .ok []) ∧
      (∀ s e, text = .ofStr s → pyStrip s ≠ "" → yakeExtract s = .error e →
        extract_keywords yakeExtract text =
          (if (extract_unique_long_words s).isEmpty then .error ()
           else .ok ((extract_unique_long_words s).map (fun w => (w, (0 : ℚ))))) ∧
        (extract_unique_long_words s).length ≤ 10 ∧
        (extract_unique_long_words s).Nodup ∧
        ∀ w ∈ extract_unique_long_words s, 5 ≤ w.length ∧ w ∈ pySplitWs s) := by
  intro yakeExtract text
  refine ⟨?_, ?_, ?_⟩
  · rintro rfl; rfl
  · rintro s rfl hs
    simp [extract_keywords, hs]
  · rintro s e rfl hs hy
    refine ⟨?_, ?_, ?_, ?_⟩
    · simp [extract_keywords, hs, hy]
    · exact List.length_take_le _ _
    · exact (List.take_sublist _ _).nodup (List.nodup_dedup _)
    · intro w hw
      have hw' := List.mem_dedup.mp (List.mem_of_mem_take hw)
      have := List.mem_filter.mp hw'
      exact ⟨by simpa using this.2, this.1⟩

/-- Witness for C10: a concrete raising extractor on concrete text triggers the
long-word fallback. -/
theorem C10_extract_keywords_fallback_witness :
    extract_keywords (fun _ => .error ()) (.ofStr "keyword extract fail of yake") =
      (if (extract_unique_long_words "keyword extract fail of yake").isEmpty then .error ()
       else .ok ((extract_unique_long_words "keyword extract fail of yake").map
         (fun w => (w, (0 : ℚ))))) ∧
    (extract_unique_long_words "keyword extract fail of yake").length ≤ 10 ∧
    (extract_unique_long_words "keyword extract fail of yake").Nodup ∧
    ∀ w ∈ extract_unique_long_words "keyword extract fail of yake",
      5 ≤ w.length ∧ w ∈ pySplitWs "keyword extract fail of yake" :=
  (C10_extract_keywords_fallback (fun _ => .error ())
      (.ofStr "keyword extract fail of yake")).2.2
    "keyword extract fail of yake" () rfl (by decide) rfl

/-- C7: a raw record missing any of the five critical fields (title, url,
description, source name, publishedAt) contributes nothing to the output of
`normalize_articles`, for every URL check, date parser and clock. -/
theorem C7_critical_field_rejection :
    ∀ (urlCheck : String → Bool) (parseDT : String → Option Int) (now : Int),
      (∀ r : RawArticle, missingCriticalField r = true →
        normalize_one urlCheck parseDT now r = none) ∧
      (∀ raws : List RawArticle,
        normalize_articles urlCheck parseDT now raws =
          normalize_articles urlCheck parseDT now
            (raws.filter (fun r => !missingCriticalField r))) := by
  intro urlCheck parseDT now
  have hone : ∀ r : RawArticle, missingCriticalField r = true →
      normalize_one urlCheck parseDT now r = none := by
    intro r h
    obtain ⟨t, u, c, d, s, a, i, p⟩ := r
    cases t <;> cases u <;> cases d <;> cases s <;> cases p <;>
      simp_all [normalize_one, missingCriticalField]
  refine ⟨hone, ?_⟩
  intro raws
  induction raws with
  | nil => rfl
  | cons r rest ih =>
    unfold normalize_articles at ih ⊢
    rw [List.filter_cons]
    by_cases hr : missingCriticalField r = true
    · rw [List.filterMap_cons, hone r hr, hr]
      simpa using ih
    · have hr' : missingCriticalField r = false := by
        cases hmc : missingCriticalField r
        · rfl
        · exact absurd hmc hr
      rw [hr']
      simp only [Bool.not_false, if_pos]
      rw [List.filterMap_cons, List.filterMap_cons, ih]

/-- Witness for C7: a record with a missing title is dropped. -/
theorem C7_critical_field_rejection_witness :
    normalize_one (fun _ => true) (fun _ => none) 0
      { title := none, url := some "https://example.com/a", content := some "c",
        description := some "d", sourceName := some "s", author := none,
        urlToImage := none, publishedAt := some "2024-01-01T00:00:00Z" } = none :=
  (C7_critical_field_rejection (fun _ => true) (fun _ => none) 0).1 _ (by decide)

/-- C8: every record kept by the enrichment loop carries the lane's requested
category (`article['category'] = options.get('category')`). -/
theorem C8_category_is_lane_category :
    ∀ (extract : String → Except Unit (List (String × ℚ)))
      (detectL : String → Option String × ℚ)
      (category : Option String) (arts : List NormArticle),
      ∀ a ∈ preparedArticles extract detectL category arts, a.category = category := by
  intro extract detectL category arts a ha
  obtain ⟨a0, _, h0⟩ := List.mem_filterMap.mp ha
  simp only [prepArticle] at h0
  split at h0
  · exact absurd h0 (by simp)
  · simp only [Option.some.injEq] at h0
    rw [← h0]

/-- Witness for C8 on a concrete lane and article. -/
theorem C8_category_is_lane_category_witness :
    ({ sampleArticle with
        keywords := [("results", (0 : ℚ))], language := some "en",
        category := some "business" } : NormArticle).category = some "business" :=
  C8_category_is_lane_category (fun _ => .ok [("results", (0 : ℚ))])
    (fun _ => (some "en", (1 : ℚ))) (some "business") [sampleArticle] _ (by decide)

/-- C1 (divergence witness): a record whose keyword extraction returns the
empty list is **not** skipped — the enrichment helper returns `([], 'en')`, the
skip test `not keywords and not language` is false because `'en'` is truthy,
and the record is stored.  Here language detection succeeds and the final
store contains the record's url, with one stored article counted. -/
theorem C1_empty_keywords_record_is_stored :
    (process_fetch_cycle_articles (fun _ => .ok []) (fun _ => (some "en", 9/10))
        (some "business") [] [sampleArticle]).2 = 1 ∧
    sampleArticle.url ∈ (process_fetch_cycle_articles (fun _ => .ok [])
        (fun _ => (some "en", 9/10)) (some "business") [] [sampleArticle]).1.map
          (fun a => a.url) := by
  decide

/-- C5 (divergence witness): when detection is below the confidence threshold,
`detect_language` returns the pair `(None, confidence)`; the caller's
`if lang_result:` test is true on any 2-tuple, so the stored language becomes
`None`, not the documented `'en'` fallback. -/
theorem C5_low_confidence_language_is_none :
    detect_language lowConfidencePredict "Committee announces new hearing schedule"
        = (none, 1/2) ∧
    (prepare_article_keywords_and_language (fun _ => .ok [("committee", 1/100)])
        (fun t => detect_language lowConfidencePredict t)
        "Committee announces new hearing schedule").2 = none ∧
    (prepare_article_keywords_and_language (fun _ => .ok [("committee", 1/100)])
        (fun t => detect_language lowConfidencePredict t)
        "Committee announces new hearing schedule").2 ≠ some "en" := by
  have hclean : clean_text "Committee announces new hearing schedule" =
      "committee announces new hearing schedule" := by decide
  have hlt : (1 / 2 : ℚ) < 7 / 10 := by norm_num
  have hdet : detect_language lowConfidencePredict
      "Committee announces new hearing schedule" = (none, 1 / 2) := by
    unfold detect_language
    rw [hclean]
    dsimp only [lowConfidencePredict]
    rw [if_neg (by decide : ¬("committee announces new hearing schedule" : String) = "")]
    rw [if_pos hlt]
  have hprep : (prepare_article_keywords_and_language (fun _ => .ok [("committee", 1/100)])
      (fun t => detect_language lowConfidencePredict t)
      "Committee announces new hearing schedule").2 = none := by
    unfold prepare_article_keywords_and_language
    dsimp only
    rw [if_neg (by decide :
      ¬(100 < ("Committee announces new hearing schedule" : String).length))]
    rw [hdet]
  refine ⟨hdet, hprep, ?_⟩
  rw [hprep]
  decide

theorem runWithRetriesAux_spec (flag cycle : Nat → Bool) :
    ∀ n k t,
      (runWithRetriesAux flag cycle n k t).attemptTimes.length ≤ n ∧
      (∀ u ∈ (runWithRetriesAux flag cycle n k t).attemptTimes,
        t + 2 ≤ u ∧ flag (u - 1) = false ∧ flag (u - 2) = false) ∧
      ((∀ a, cycle a = false) →
        (runWithRetriesAux flag cycle n k t).success = false) ∧
      ((∀ a, cycle a = false) → (∀ t', flag t' = false) →
        (runWithRetriesAux flag cycle n k t).attemptTimes.length = n) := by
  intro n
  induction n with
  | zero =>
    intro k t
    refine ⟨by simp [runWithRetriesAux], by simp [runWithRetriesAux], ?_, ?_⟩
    · intro _; rfl
    · intro _ _; rfl
  | succ m ih =>
    intro k t
    by_cases h1 : flag t = true
    · have hr : runWithRetriesAux flag cycle (m + 1) k t = ⟨false, [], t + 1⟩ := by
        simp [runWithRetriesAux, h1]
      rw [hr]
      exact ⟨by simp, by simp, fun _ => rfl, fun _ hf => absurd h1 (by simp [hf t])⟩
    · rw [Bool.not_eq_true] at h1
      by_cases h2 : flag (t + 1) = true
      · have hr : runWithRetriesAux flag cycle (m + 1) k t = ⟨false, [], t + 2⟩ := by
          simp [runWithRetriesAux, h1, h2]
        rw [hr]
        exact ⟨by simp, by simp, fun _ => rfl, fun _ hf => absurd h2 (by simp [hf (t + 1)])⟩
      · rw [Bool.not_eq_true] at h2
        by_cases h3 : cycle k = true
        · have hr : runWithRetriesAux flag cycle (m + 1) k t = ⟨true, [t + 2], t + 3⟩ := by
            simp [runWithRetriesAux, h1, h2, h3]
          rw [hr]
          refine ⟨by simp, ?_, fun hc => absurd h3 (by simp [hc k]),
            fun hc _ => absurd h3 (by simp [hc k])⟩
          intro u hu
          simp only [List.mem_singleton] at hu
          subst hu
          have he1 : t + 2 - 1 = t + 1 := by omega
          have he2 : t + 2 - 2 = t := by omega
          exact ⟨le_refl _, by rw [he1]; exact h2, by rw [he2]; exact h1⟩
        · rw [Bool.not_eq_true] at h3
          by_cases h4 : m = 0
          · subst h4
            have hr : runWithRetriesAux flag cycle (0 + 1) k t = ⟨false, [t + 2], t + 3⟩ := by
              simp [runWithRetriesAux, h1, h2, h3]
            rw [hr]
            refine ⟨by simp, ?_, fun _ => rfl, fun _ _ => by simp⟩
            intro u hu
            simp only [List.mem_singleton] at hu
            subst hu
            have he1 : t + 2 - 1 = t + 1 := by omega
            have he2 : t + 2 - 2 = t := by omega
            exact ⟨le_refl _, by rw [he1]; exact h2, by rw [he2]; exact h1⟩
          · by_cases h5 : flag (t + 3) = true
            · have hr : runWithRetriesAux flag cycle (m + 1) k t
                  = ⟨false, [t + 2], t + 4⟩ := by
                simp [runWithRetriesAux, h1, h2, h3, h4, h5]
              rw [hr]
              refine ⟨by simp, ?_, fun _ => rfl, fun _ hf => absurd h5 (by simp [hf (t + 3)])⟩
              intro u hu
              simp only [List.mem_singleton] at hu
              subst hu
              have he1 : t + 2 - 1 = t + 1 := by omega
              have he2 : t + 2 - 2 = t := by omega
              exact ⟨le_refl _, by rw [he1]; exact h2, by rw [he2]; exact h1⟩
            · rw [Bool.not_eq_true] at h5
              have hr : runWithRetriesAux flag cycle (m + 1) k t =
                  ⟨(runWithRetriesAux flag cycle m (k + 1) (t + 4)).success,
                    (t + 2) :: (runWithRetriesAux flag cycle m (k + 1) (t + 4)).attemptTimes,
                    (runWithRetriesAux flag cycle m (k + 1) (t + 4)).endTime⟩ := by
                simp [runWithRetriesAux, h1, h2, h3, h4, h5]
              rw [hr]
              obtain ⟨ihlen, ihmem, ihsucc, ihexact⟩ := ih (k + 1) (t + 4)
              refine ⟨?_, ?_, ?_, ?_⟩
              · simpa using Nat.succ_le_succ ihlen
              · intro u hu
                simp only [List.mem_cons] at hu
                rcases hu with hu | hu
                · subst hu
                  have he1 : t + 2 - 1 = t + 1 := by omega
                  have he2 : t + 2 - 2 = t := by omega
                  exact ⟨le_refl _, by rw [he1]; exact h2, by rw [he2]; exact h1⟩
                · obtain ⟨hge, hf1, hf2⟩ := ihmem u hu
                  exact ⟨by omega, hf1, hf2⟩
              · intro hc
                exact ihsucc hc
              · intro hc hf
                simpa using ihexact hc hf

/-- C4: against a cycle that always fails, `run_with_retries` starts exactly
`MAX_RETRIES` (3) attempts and returns `False`; at most `MAX_RETRIES` attempts
are ever started; and under a set-once shutdown flag, no attempt is started
after any instant at which the flag is set (each attempt's preceding `is_set`
check and interruptible sleep observed the flag unset). -/
theorem C4_retry_exhaustion_and_shutdown :
    ∀ flag cycle : Nat → Bool,
      (run_with_retries flag cycle).attemptTimes.length ≤ MAX_RETRIES ∧
      ((∀ a, cycle a = false) → (run_with_retries flag cycle).success = false) ∧
      ((∀ a, cycle a = false) → (∀ t, flag t = false) →
        (run_with_retries flag cycle).attemptTimes.length = MAX_RETRIES) ∧
      (MonotoneFlag flag → ∀ t0, flag t0 = true →
        ∀ u ∈ (run_with_retries flag cycle).attemptTimes, u ≤ t0) := by
  intro flag cycle
  obtain ⟨hlen, hmem, hsucc, hexact⟩ := runWithRetriesAux_spec flag cycle MAX_RETRIES 0 0
  refine ⟨hlen, hsucc, hexact, ?_⟩
  intro hmono t0 ht0 u hu
  obtain ⟨hge, hf1, _⟩ := hmem u hu
  by_contra hgt
  have h1 : t0 ≤ u - 1 := by omega
  exact absurd (hmono t0 (u - 1) h1 ht0) (by simp [hf1])

theorem lookupKey_cons {α : Type} (key : α → String) (k : String) (a : α) (l : List α) :
    lookupKey key k (a :: l) = if key a = k then some a else lookupKey key k l := by
  by_cases h : key a = k
  · rw [if_pos h]
    exact List.find?_cons_of_pos _ (by simp [h])
  · rw [if_neg h]
    exact List.find?_cons_of_neg _ (by simp [h])

theorem lookupKey_append {α : Type} (key : α → String) (k : String) (l₁ l₂ : List α) :
    lookupKey key k (l₁ ++ l₂) = (lookupKey key k l₁).or (lookupKey key k l₂) := by
  simp [lookupKey, List.find?_append]

theorem lookupKey_eq_none {α : Type} (key : α → String) (k : String) (l : List α) :
    lookupKey key k l = none ↔ k ∉ l.map key := by
  simp only [lookupKey, List.find?_eq_none, List.mem_map, decide_eq_true_eq]
  constructor
  · rintro h ⟨a, ha, rfl⟩
    exact h a ha rfl
  · rintro h a ha hk
    exact h ⟨a, ha, hk⟩

theorem lookupKey_isSome {α : Type} (key : α → String) (k : String) (l : List α)
    (h : k ∈ l.map key) : ∃ a, lookupKey key k l = some a := by
  cases hl : lookupKey key k l with
  | none => exact absurd h ((lookupKey_eq_none key k l).mp hl)
  | some a => exact ⟨a, rfl⟩

theorem lastOcc_cons {α : Type} (key : α → String) (k : String) (a : α) (l : List α) :
    lastOcc key k (a :: l) =
      (lastOcc key k l).or (if key a = k then some a else none) := by
  unfold lastOcc
  by_cases h : key a = k
  · rw [List.filter_cons_of_pos (by simp [h]), if_pos h]
    cases hf : l.filter (fun b => key b = k) with
    | nil => simp
    | cons x xs =>
      rw [List.getLast?_cons_cons]
      cases hxs : (x :: xs).getLast? with
      | none => exact absurd (List.getLast?_eq_none_iff.mp hxs) (by simp)
      | some r => simp
  · rw [List.filter_cons_of_neg (by simp [h]), if_neg h]
    cases hl : (l.filter (fun b => key b = k)).getLast? <;> simp

theorem dictUpsert_map_key {α : Type} (key : α → String) (a : α) (d : List α) :
    (dictUpsert key a d).map key =
      if key a ∈ d.map key then d.map key else d.map key ++ [key a] := by
  induction d with
  | nil => simp [dictUpsert]
  | cons b rest ih =>
    simp only [dictUpsert]
    by_cases hb : key b = key a
    · rw [if_pos hb]
      simp [hb]
    · rw [if_neg hb]
      simp only [List.map_cons, ih]
      by_cases hm : key a ∈ rest.map key
      · simp [hm]
      · have hne : ¬key a = key b := fun h => hb h.symm
        simp [hm, hne]

theorem dictUpsert_lookup {α : Type} (key : α → String) (a : α) (d : List α) (k : String) :
    lookupKey key k (dictUpsert key a d) =
      if key a = k then some a else lookupKey key k d := by
  induction d with
  | nil =>
    simp only [dictUpsert]
    rw [lookupKey_cons]
  | cons b rest ih =>
    simp only [dictUpsert]
    by_cases hb : key b = key a
    · rw [if_pos hb, lookupKey_cons]
      by_cases hk : key a = k
      · rw [if_pos hk, if_pos hk]
      · rw [if_neg hk, if_neg hk, lookupKey_cons, if_neg (hb ▸ hk)]
    · rw [if_neg hb, lookupKey_cons, ih, lookupKey_cons]
      by_cases hk : key a = k
      · rw [if_pos hk, if_pos hk, if_neg (fun h => hb (h.trans hk.symm))]
      · rw [if_neg hk, if_neg hk]

theorem uniqueByKey_snoc {α : Type} (key : α → String) (l : List α) (a : α) :
    uniqueByKey key (l ++ [a]) = dictUpsert key a (uniqueByKey key l) := by
  simp [uniqueByKey, List.foldl_append]

theorem uniqueByKey_keys_nodup {α : Type} (key : α → String) (l : List α) :
    ((uniqueByKey key l).map key).Nodup := by
  induction l using List.reverseRecOn with
  | nil => simp [uniqueByKey]
  | append_singleton l a ih =>
    rw [uniqueByKey_snoc, dictUpsert_map_key]
    by_cases hm : key a ∈ (uniqueByKey key l).map key
    · simpa [hm] using ih
    · simp [hm, List.nodup_append, ih]

theorem uniqueByKey_lookup {α : Type} (key : α → String) (l : List α) (k : String) :
    lookupKey key k (uniqueByKey key l) = lastOcc key k l := by
  induction l using List.reverseRecOn with
  | nil => rfl
  | append_singleton l a ih =>
    rw [uniqueByKey_snoc, dictUpsert_lookup, ih]
    unfold lastOcc
    rw [List.filter_append]
    by_cases hk : key a = k
    · rw [if_pos hk]
      simp [hk, List.getLast?_concat]
    · rw [if_neg hk]
      simp [hk]

theorem uniqueByKey_keys_mem {α : Type} (key : α → String) (l : List α) :
    ∀ k, k ∈ (uniqueByKey key l).map key ↔ k ∈ l.map key := by
  induction l using List.reverseRecOn with
  | nil => intro k; simp [uniqueByKey]
  | append_singleton l a ih =>
    intro k
    rw [uniqueByKey_snoc, dictUpsert_map_key]
    by_cases hm : key a ∈ (uniqueByKey key l).map key
    · have hma : key a ∈ l.map key := (ih (key a)).mp hm
      simp only [hm, if_true, ih k, List.map_append, List.map_cons, List.map_nil,
        List.mem_append, List.mem_cons, List.not_mem_nil, or_false]
      constructor
      · exact Or.inl
      · rintro (h | h)
        · exact h
        · exact h ▸ hma
    · simp [hm, ih k, List.mem_append]

theorem bulkCreate_eq_append {α : Type} (key : α → String) (store objs : List α)
    (hdisj : ∀ a ∈ objs, key a ∉ store.map key) (hnd : (objs.map key).Nodup) :
    bulkCreateIgnoreConflicts key store objs = store ++ objs := by
  induction objs generalizing store with
  | nil => simp [bulkCreateIgnoreConflicts]
  | cons obj rest ih =>
    have hobj : key obj ∉ store.map key := hdisj obj (by simp)
    rw [List.map_cons, List.nodup_cons] at hnd
    show List.foldl _ (if key obj ∈ store.map key then store else store ++ [obj]) rest = _
    rw [if_neg hobj]
    have hrec : bulkCreateIgnoreConflicts key (store ++ [obj]) rest
        = (store ++ [obj]) ++ rest := by
      apply ih
      · intro a ha
        simp only [List.map_append, List.mem_append, List.map_cons, List.map_nil,
          List.mem_cons, List.not_mem_nil, or_false]
        rintro (h | h)
        · exact hdisj a (List.mem_cons_of_mem _ ha) h
        · exact hnd.1 (h ▸ List.mem_map_of_mem key ha)
      · exact hnd.2
    rw [show List.foldl (fun st a => if key a ∈ st.map key then st else st ++ [a])
        (store ++ [obj]) rest = bulkCreateIgnoreConflicts key (store ++ [obj]) rest from rfl,
      hrec]
    simp

theorem lookupKey_filter {α : Type} (key : α → String) (k : String) (q : α → Bool)
    (l : List α) (hq : ∀ a ∈ l, key a = k → q a = true) :
    lookupKey key k (l.filter q) = lookupKey key k l := by
  induction l with
  | nil => rfl
  | cons b rest ih =>
    have ihr := ih (fun a ha => hq a (List.mem_cons_of_mem _ ha))
    by_cases hb : key b = k
    · rw [List.filter_cons_of_pos (hq b (by simp) hb), lookupKey_cons, if_pos hb,
        lookupKey_cons, if_pos hb]
    · by_cases hqb : q b = true
      · rw [List.filter_cons_of_pos hqb, lookupKey_cons, if_neg hb, lookupKey_cons,
          if_neg hb]
        exact ihr
      · rw [List.filter_cons_of_neg (by simpa using hqb), lookupKey_cons, if_neg hb]
        exact ihr

/-- Unfolding `articles_persist`: the new store is the old store followed by
`insertedBatch store B`, whose length is the reported count. -/
theorem articles_persist_spec (store B : List NormArticle) :
    articles_persist store B
      = (store ++ insertedBatch store B, (insertedBatch store B).length) := by
  by_cases hB : B.isEmpty = true
  · rw [List.isEmpty_iff.mp hB]
    simp [articles_persist, insertedBatch, uniqueByKey]
  · have hfc : (uniqueByKey (fun x => x.url) B).filter
        (fun a => !(a.url ∈ ((store.map (fun x => x.url)).filter
          (fun u => u ∈ (uniqueByKey (fun x => x.url) B).map (fun x => x.url)))))
        = insertedBatch store B := by
      apply List.filter_congr
      intro a ha
      have hmem : a.url ∈ (uniqueByKey (fun x => x.url) B).map (fun x => x.url) :=
        List.mem_map_of_mem (fun x => x.url) ha
      by_cases hs : a.url ∈ store.map (fun x => x.url)
      · have hin : a.url ∈ (store.map (fun x => x.url)).filter
            (fun u => u ∈ (uniqueByKey (fun x => x.url) B).map (fun x => x.url)) :=
          List.mem_filter.mpr ⟨hs, by simpa using hmem⟩
        rw [decide_eq_true hin, decide_eq_true hs]
      · have hout : a.url ∉ (store.map (fun x => x.url)).filter
            (fun u => u ∈ (uniqueByKey (fun x => x.url) B).map (fun x => x.url)) :=
          fun hm => hs (List.mem_filter.mp hm).1
        rw [decide_eq_false hout, decide_eq_false hs]
    have hnd : ((insertedBatch store B).map (fun x => x.url)).Nodup :=
      ((List.filter_sublist _).map _).nodup (uniqueByKey_keys_nodup _ B)
    have hdisj : ∀ a ∈ insertedBatch store B, a.url ∉ store.map (fun x => x.url) := by
      intro a ha
      have := (List.mem_filter.mp ha).2
      simpa using this
    simp only [articles_persist, hB, Bool.false_eq_true, if_false]
    rw [hfc, bulkCreate_eq_append (fun x => x.url) store (insertedBatch store B) hdisj hnd]

theorem insertedBatch_keys_nodup (store B : List NormArticle) :
    ((insertedBatch store B).map (fun x => x.url)).Nodup :=
  ((List.filter_sublist _).map _).nodup (uniqueByKey_keys_nodup _ B)

theorem insertedBatch_disjoint (store B : List NormArticle) :
    ∀ a ∈ insertedBatch store B, a.url ∉ store.map (fun x => x.url) := by
  intro a ha
  have := (List.mem_filter.mp ha).2
  simpa using this

/-- After one persistence run, every url of the deduplicated batch is stored,
so a second run over the same batch inserts nothing. -/
theorem insertedBatch_after_run (store B : List NormArticle) :
    insertedBatch (store ++ insertedBatch store B) B = [] := by
  rw [insertedBatch, List.filter_eq_nil_iff]
  intro a ha
  have hmem : a.url ∈ (store ++ insertedBatch store B).map (fun x => x.url) := by
    by_cases hsa : a.url ∈ store.map (fun x => x.url)
    · simp [List.map_append, hsa]
    · have hin : a ∈ insertedBatch store B := by
        rw [insertedBatch, List.mem_filter]
        exact ⟨ha, by simpa using hsa⟩
      simp [List.map_append, List.mem_map_of_mem (fun x : NormArticle => x.url) hin]
  simp only [Bool.not_eq_true', decide_eq_false_iff_not, Classical.not_not]
  exact hmem

/-- C2: the article persistence step is idempotent — running it a second time
on the resulting store stores zero new entities and leaves the store unchanged
— and it preserves uniqueness of the natural key `url`, so repeated ingestion
of the same batch across cycles never yields two stored articles with the same
url. -/
theorem C2_upsert_idempotent :
    ∀ store B : List NormArticle,
      (articles_persist (articles_persist store B).1 B).1
        = (articles_persist store B).1 ∧
      (articles_persist (articles_persist store B).1 B).2 = 0 ∧
      ((store.map (fun a => a.url)).Nodup →
        ((articles_persist store B).1.map (fun a => a.url)).Nodup) := by
  intro store B
  have h1 := articles_persist_spec store B
  have h2 := articles_persist_spec (store ++ insertedBatch store B) B
  rw [insertedBatch_after_run store B] at h2
  refine ⟨?_, ?_, ?_⟩
  · rw [h1]
    simp only []
    rw [h2]
    simp
  · rw [h1]
    simp only []
    rw [h2]
    rfl
  · intro hstore
    rw [h1]
    simp only [List.map_append, List.nodup_append]
    refine ⟨hstore, insertedBatch_keys_nodup store B, ?_⟩
    intro x hx hx2
    obtain ⟨a, ha, rfl⟩ := List.mem_map.mp hx2
    exact insertedBatch_disjoint store B a ha hx

/-- Witness for C2 at a concrete store and batch. -/
theorem C2_upsert_idempotent_witness :
    (articles_persist (articles_persist [] [sampleArticle]).1 [sampleArticle]).1
      = (articles_persist [] [sampleArticle]).1 ∧
    (articles_persist (articles_persist [] [sampleArticle]).1 [sampleArticle]).2 = 0 ∧
    ((articles_persist [] [sampleArticle]).1.map (fun a => a.url)).Nodup :=
  ⟨(C2_upsert_idempotent [] [sampleArticle]).1,
   (C2_upsert_idempotent [] [sampleArticle]).2.1,
   (C2_upsert_idempotent [] [sampleArticle]).2.2 (by simp)⟩

/-- Witness for C4: with the flag never set and an always-failing cycle, the
runner fails after exactly `MAX_RETRIES` started attempts. -/
theorem C4_retry_exhaustion_and_shutdown_witness :
    (run_with_retries (fun _ => false) (fun _ => false)).success = false ∧
    (run_with_retries (fun _ => false) (fun _ => false)).attemptTimes.length
      = MAX_RETRIES :=
  ⟨(C4_retry_exhaustion_and_shutdown (fun _ => false) (fun _ => false)).2.1
      (fun _ => rfl),
   (C4_retry_exhaustion_and_shutdown (fun _ => false) (fun _ => false)).2.2.1
      (fun _ => rfl) (fun _ => rfl)⟩

theorem lastOcc_isSome {α : Type} (key : α → String) (k : String) (l : List α)
    (h : k ∈ l.map key) : ∃ q, lastOcc key k l = some q := by
  unfold lastOcc
  obtain ⟨a, ha, rfl⟩ := List.mem_map.mp h
  cases hf : l.filter (fun b => key b = key a) with
  | nil =>
    rw [List.filter_eq_nil_iff] at hf
    have hfa := hf a ha
    simp at hfa
  | cons x xs =>
    cases hxs : (x :: xs).getLast? with
    | none => exact absurd (List.getLast?_eq_none_iff.mp hxs) (by simp)
    | some r => exact ⟨r, rfl⟩

theorem lastOcc_append {α : Type} (key : α → String) (k : String) (l₁ l₂ : List α) :
    lastOcc key k (l₁ ++ l₂) = (lastOcc key k l₂).or (lastOcc key k l₁) := by
  unfold lastOcc
  rw [List.filter_append, List.getLast?_append]

theorem saveByName_map_name (p : SourceRec) (st : List SourceRec) :
    (saveByName p st).map (fun s => s.name) = st.map (fun s => s.name) := by
  induction st with
  | nil => rfl
  | cons obj rest ih =>
    simp only [saveByName]
    by_cases h : obj.name = p.name
    · rw [if_pos h]
      simp [h]
    · rw [if_neg h]
      simp [ih]

theorem saveByName_lookup_ne (p : SourceRec) (st : List SourceRec) (k : String)
    (h : ¬p.name = k) :
    lookupKey (fun s => s.name) k (saveByName p st)
      = lookupKey (fun s => s.name) k st := by
  induction st with
  | nil => rfl
  | cons obj rest ih =>
    simp only [saveByName]
    by_cases ho : obj.name = p.name
    · rw [if_pos ho, lookupKey_cons, lookupKey_cons, if_neg h,
        if_neg (fun hh => h (ho.symm.trans hh))]
    · rw [if_neg ho, lookupKey_cons, lookupKey_cons, ih]

theorem saveByName_lookup_eq (p : SourceRec) (st : List SourceRec)
    (hmem : p.name ∈ st.map (fun s => s.name)) :
    lookupKey (fun s => s.name) p.name (saveByName p st) = some p := by
  induction st with
  | nil => simp at hmem
  | cons obj rest ih =>
    simp only [saveByName]
    by_cases ho : obj.name = p.name
    · rw [if_pos ho, lookupKey_cons, if_pos rfl]
    · rw [if_neg ho, lookupKey_cons, if_neg ho]
      apply ih
      simp only [List.map_cons, List.mem_cons] at hmem
      rcases hmem with h | h
      · exact absurd h.symm ho
      · exact h

theorem sourcesUpdateLoop_map_name (ex : List String) (l : List SourceRec) :
    ∀ (st : List SourceRec) (u : Nat),
      (sourcesUpdateLoop ex l st u).1.map (fun s => s.name)
        = st.map (fun s => s.name) := by
  induction l with
  | nil => intro st u; rfl
  | cons q rest ih =>
    intro st u
    simp only [sourcesUpdateLoop]
    by_cases hq : q.name ∈ ex
    · rw [if_pos hq]
      cases hf : st.find? (fun obj => obj.name = q.name) with
      | none => simp only [hf]; exact ih st u
      | some obj =>
        simp only [hf]
        by_cases hd : sourceFieldsDiffer obj q = true
        · rw [if_pos hd, ih]
          exact saveByName_map_name q st
        · rw [if_neg hd]
          exact ih st u
    · rw [if_neg hq]
      exact ih st u

theorem sourcesUpdateLoop_lookup_notin (ex : List String) (l : List SourceRec)
    (k : String) (hk : k ∉ ex) :
    ∀ (st : List SourceRec) (u : Nat),
      lookupKey (fun s => s.name) k (sourcesUpdateLoop ex l st u).1
        = lookupKey (fun s => s.name) k st := by
  induction l with
  | nil => intro st u; rfl
  | cons q rest ih =>
    intro st u
    simp only [sourcesUpdateLoop]
    by_cases hq : q.name ∈ ex
    · rw [if_pos hq]
      cases hf : st.find? (fun obj => obj.name = q.name) with
      | none => simp only [hf]; exact ih st u
      | some obj =>
        simp only [hf]
        by_cases hd : sourceFieldsDiffer obj q = true
        · rw [if_pos hd, ih]
          exact saveByName_lookup_ne q st k (fun h => hk (h ▸ hq))
        · rw [if_neg hd]
          exact ih st u
    · rw [if_neg hq]
      exact ih st u

theorem sourceRec_eq_of_not_differ (obj q : SourceRec) (hn : obj.name = q.name)
    (hd : ¬sourceFieldsDiffer obj q = true) : obj = q := by
  simp only [sourceFieldsDiffer, Bool.or_eq_true, decide_eq_true_eq, not_or,
    Classical.not_not] at hd
  obtain ⟨⟨⟨h1, h2⟩, h3⟩, h4⟩ := hd
  cases obj
  cases q
  simp_all

theorem sourcesUpdateLoop_lookup_in (ex : List String) (l : List SourceRec)
    (k : String) (hk : k ∈ ex) :
    ∀ (st : List SourceRec) (u : Nat), k ∈ st.map (fun s => s.name) →
      lookupKey (fun s => s.name) k (sourcesUpdateLoop ex l st u).1
        = (lastOcc (fun s => s.name) k l).or (lookupKey (fun s => s.name) k st) := by
  induction l with
  | nil =>
    intro st u hst
    simp [sourcesUpdateLoop, lastOcc]
  | cons q rest ih =>
    intro st u hst
    rw [lastOcc_cons]
    simp only [sourcesUpdateLoop]
    by_cases hq : q.name ∈ ex
    · rw [if_pos hq]
      by_cases hqk : q.name = k
      · obtain ⟨obj, hobj⟩ := lookupKey_isSome (fun s => s.name) k st hst
        have hf : st.find? (fun o => o.name = q.name) = some obj := by
          rw [hqk]
          exact hobj
        simp only [hf]
        by_cases hd : sourceFieldsDiffer obj q = true
        · rw [if_pos hd]
          have hst' : k ∈ (saveByName q st).map (fun s => s.name) := by
            rw [saveByName_map_name]
            exact hst
          rw [ih (saveByName q st) (u + 1) hst']
          have hlq : lookupKey (fun s => s.name) k (saveByName q st) = some q := by
            have hm : q.name ∈ st.map (fun s => s.name) := by
              rw [hqk]
              exact hst
            have := saveByName_lookup_eq q st hm
            rw [hqk] at this
            exact this
          rw [hlq, if_pos hqk, Option.or_assoc, Option.or_some]
        · have hobjname : obj.name = q.name := by
            have := List.find?_some hf
            simpa using this
          have hobjq : obj = q := sourceRec_eq_of_not_differ obj q hobjname hd
          rw [if_neg hd, ih st u hst, hobj, hobjq, if_pos hqk, Option.or_assoc,
            Option.or_some]
      · cases hf : st.find? (fun o => o.name = q.name) with
        | none =>
          simp only [hf]
          rw [ih st u hst, if_neg hqk, Option.or_none]
        | some obj =>
          simp only [hf]
          by_cases hd : sourceFieldsDiffer obj q = true
          · rw [if_pos hd]
            have hst' : k ∈ (saveByName q st).map (fun s => s.name) := by
              rw [saveByName_map_name]
              exact hst
            rw [ih (saveByName q st) (u + 1) hst', saveByName_lookup_ne q st k hqk,
              if_neg hqk, Option.or_none]
          · rw [if_neg hd, ih st u hst, if_neg hqk, Option.or_none]
    · rw [if_neg hq]
      have hqk : ¬q.name = k := fun h => hq (h ▸ hk)
      rw [ih st u hst, if_neg hqk, Option.or_none]

theorem sourcesPersistBlock_spec (st prepared : List SourceRec) (p : SourceRec)
    (hpre : ∀ q ∈ prepared, q.name ∈ st.map (fun s => s.name)) :
    ((sourcesPersistBlock st (prepared ++ [p])).1.map (fun s => s.name)
        = (if p.name ∈ st.map (fun s => s.name)
           then st.map (fun s => s.name)
           else st.map (fun s => s.name) ++ [p.name])) ∧
    (∀ k, k ∈ (prepared ++ [p]).map (fun s => s.name) →
      lookupKey (fun s => s.name) k (sourcesPersistBlock st (prepared ++ [p])).1
        = lastOcc (fun s => s.name) k (prepared ++ [p])) := by
  have hne : ((prepared ++ [p]).isEmpty = true) = False := by
    simp
  have hpmem : p.name ∈ (prepared ++ [p]).map (fun s => s.name) := by
    simp
  have hNIpre : prepared.filter
      (fun q => !(q.name ∈ (st.map (fun s => s.name)).filter
        (fun n => n ∈ (prepared ++ [p]).map (fun s => s.name)))) = [] := by
    rw [List.filter_eq_nil_iff]
    intro q hq
    have h1 : q.name ∈ (st.map (fun s => s.name)).filter
        (fun n => n ∈ (prepared ++ [p]).map (fun s => s.name)) :=
      List.mem_filter.mpr ⟨hpre q hq, by
        simp only [decide_eq_true_eq, List.map_append, List.mem_append]
        exact Or.inl (List.mem_map_of_mem _ hq)⟩
    simp only [Bool.not_eq_true', decide_eq_false_iff_not, Classical.not_not]
    exact h1
  by_cases hp : p.name ∈ st.map (fun s => s.name)
  · -- the new record's name is already stored: nothing is created
    have hpex : p.name ∈ (st.map (fun s => s.name)).filter
        (fun n => n ∈ (prepared ++ [p]).map (fun s => s.name)) :=
      List.mem_filter.mpr ⟨hp, by simp⟩
    have hNI : (prepared ++ [p]).filter
        (fun q => !(q.name ∈ (st.map (fun s => s.name)).filter
          (fun n => n ∈ (prepared ++ [p]).map (fun s => s.name)))) = [] := by
      rw [List.filter_append, hNIpre]
      have hps : ([p].filter
          (fun q => !(q.name ∈ (st.map (fun s => s.name)).filter
            (fun n => n ∈ (prepared ++ [p]).map (fun s => s.name))))) = [] := by
        rw [List.filter_eq_nil_iff]
        intro q hq
        simp only [List.mem_singleton] at hq
        subst hq
        simp only [Bool.not_eq_true', decide_eq_false_iff_not, Classical.not_not]
        exact hpex
      rw [hps]
      rfl
    have hblock : (sourcesPersistBlock st (prepared ++ [p])).1
        = (sourcesUpdateLoop
            ((st.map (fun s => s.name)).filter
              (fun n => n ∈ (prepared ++ [p]).map (fun s => s.name)))
            (prepared ++ [p]) st 0).1 := by
      simp only [sourcesPersistBlock, hne, if_false, hNI, List.isEmpty_nil, if_true]
    rw [hblock]
    constructor
    · rw [sourcesUpdateLoop_map_name, if_pos hp]
    · intro k hk
      have hkst : k ∈ st.map (fun s => s.name) := by
        simp only [List.map_append, List.mem_append] at hk
        rcases hk with hk | hk
        · obtain ⟨q, hq, rfl⟩ := List.mem_map.mp hk
          exact hpre q hq
        · simp only [List.map_cons, List.map_nil, List.mem_cons, List.not_mem_nil,
            or_false] at hk
          rw [hk]
          exact hp
      have hkex : k ∈ (st.map (fun s => s.name)).filter
          (fun n => n ∈ (prepared ++ [p]).map (fun s => s.name)) :=
        List.mem_filter.mpr ⟨hkst, by simpa using hk⟩
      rw [sourcesUpdateLoop_lookup_in _ _ k hkex st 0 hkst]
      obtain ⟨q0, hq0⟩ := lastOcc_isSome (fun s : SourceRec => s.name) k (prepared ++ [p]) hk
      rw [hq0, Option.or_some]
  · -- genuinely new name: created once, then never re-created
    have hpex : p.name ∉ (st.map (fun s => s.name)).filter
        (fun n => n ∈ (prepared ++ [p]).map (fun s => s.name)) :=
      fun hm => hp (List.mem_filter.mp hm).1
    have hNI : (prepared ++ [p]).filter
        (fun q => !(q.name ∈ (st.map (fun s => s.name)).filter
          (fun n => n ∈ (prepared ++ [p]).map (fun s => s.name)))) = [p] := by
      rw [List.filter_append, hNIpre]
      have hps : ([p].filter
          (fun q => !(q.name ∈ (st.map (fun s => s.name)).filter
            (fun n => n ∈ (prepared ++ [p]).map (fun s => s.name))))) = [p] := by
        rw [List.filter_cons_of_pos ?_, List.filter_nil]
        simp only [Bool.not_eq_true', decide_eq_false_iff_not]
        exact hpex
      rw [hps]
      rfl
    have hbc : bulkCreateIgnoreConflicts (fun s => s.name) st [p] = st ++ [p] :=
      bulkCreate_eq_append _ st [p]
        (by
          intro a ha
          simp only [List.mem_singleton] at ha
          subst ha
          exact hp)
        (by simp)
    have hblock : (sourcesPersistBlock st (prepared ++ [p])).1
        = (sourcesUpdateLoop
            ((st.map (fun s => s.name)).filter
              (fun n => n ∈ (prepared ++ [p]).map (fun s => s.name)))
            (prepared ++ [p]) (st ++ [p]) 0).1 := by
      simp only [sourcesPersistBlock, hne, if_false, hNI, hbc]
      rfl
    rw [hblock]
    constructor
    · rw [sourcesUpdateLoop_map_name, if_neg hp, List.map_append]
      rfl
    · intro k hk
      by_cases hkp : k = p.name
      · have hkex : k ∉ (st.map (fun s => s.name)).filter
            (fun n => n ∈ (prepared ++ [p]).map (fun s => s.name)) := by
          rw [hkp]
          exact hpex
        have hkst : k ∉ st.map (fun s => s.name) := by
          rw [hkp]
          exact hp
        rw [sourcesUpdateLoop_lookup_notin _ _ k hkex (st ++ [p]) 0, lookupKey_append,
          (lookupKey_eq_none (fun s => s.name) k st).mpr hkst, Option.none_or,
          lookupKey_cons, if_pos hkp.symm, lastOcc_append]
        have hnop : lastOcc (fun s => s.name) k prepared = none := by
          unfold lastOcc
          have hfil : prepared.filter (fun q => q.name = k) = [] := by
            rw [List.filter_eq_nil_iff]
            intro q hq
            simp only [decide_eq_true_eq]
            intro hqk
            apply hp
            rw [← hkp, ← hqk]
            exact hpre q hq
          rw [hfil]
          rfl
        have hlastp : lastOcc (fun s => s.name) k [p] = some p := by
          unfold lastOcc
          rw [List.filter_cons_of_pos (by simp [hkp.symm]), List.filter_nil]
          rfl
        rw [hnop, Option.or_none, hlastp]
      · have hkpre : k ∈ prepared.map (fun s => s.name) := by
          simp only [List.map_append, List.mem_append, List.map_cons, List.map_nil,
            List.mem_cons, List.not_mem_nil, or_false] at hk
          rcases hk with hk | hk
          · exact hk
          · exact absurd hk hkp
        have hkst : k ∈ st.map (fun s => s.name) := by
          obtain ⟨q, hq, rfl⟩ := List.mem_map.mp hkpre
          exact hpre q hq
        have hkst' : k ∈ (st ++ [p]).map (fun s => s.name) := by
          simp [List.map_append, hkst]
        have hkex : k ∈ (st.map (fun s => s.name)).filter
            (fun n => n ∈ (prepared ++ [p]).map (fun s => s.name)) :=
          List.mem_filter.mpr ⟨hkst, by simpa using hk⟩
        rw [sourcesUpdateLoop_lookup_in _ _ k hkex (st ++ [p]) 0 hkst']
        obtain ⟨q0, hq0⟩ :=
          lastOcc_isSome (fun s : SourceRec => s.name) k (prepared ++ [p]) hk
        rw [hq0, Option.or_some]

theorem sourcesCycleAux_inv :
    ∀ (rest prepared st : List SourceRec) (c u : Nat),
      (st.map (fun s => s.name)).Nodup →
      (∀ q ∈ prepared, q.name ∈ st.map (fun s => s.name)) →
      (∀ k, k ∈ prepared.map (fun s => s.name) →
        lookupKey (fun s => s.name) k st = lastOcc (fun s => s.name) k prepared) →
      ((sourcesCycleAux st prepared rest c u).1.map (fun s => s.name)).Nodup ∧
      (∀ q ∈ prepared ++ rest,
        q.name ∈ (sourcesCycleAux st prepared rest c u).1.map (fun s => s.name)) ∧
      (∀ k, k ∈ (prepared ++ rest).map (fun s => s.name) →
        lookupKey (fun s => s.name) k (sourcesCycleAux st prepared rest c u).1
          = lastOcc (fun s => s.name) k (prepared ++ rest)) := by
  intro rest
  induction rest with
  | nil =>
    intro prepared st c u hnd hpre hlast
    refine ⟨hnd, ?_, ?_⟩
    · intro q hq
      rw [List.append_nil] at hq
      exact hpre q hq
    · intro k hk
      rw [List.append_nil] at hk ⊢
      exact hlast k hk
  | cons p rest' ih =>
    intro prepared st c u hnd hpre hlast
    have hspec := sourcesPersistBlock_spec st prepared p hpre
    have haux : sourcesCycleAux st prepared (p :: rest') c u
        = sourcesCycleAux (sourcesPersistBlock st (prepared ++ [p])).1
            (prepared ++ [p]) rest'
            (c + (sourcesPersistBlock st (prepared ++ [p])).2.1)
            (u + (sourcesPersistBlock st (prepared ++ [p])).2.2) := rfl
    have hnd' : ((sourcesPersistBlock st (prepared ++ [p])).1.map
        (fun s => s.name)).Nodup := by
      rw [hspec.1]
      by_cases hp : p.name ∈ st.map (fun s => s.name)
      · rwa [if_pos hp]
      · rw [if_neg hp]
        simp [List.nodup_append, hnd, hp]
    have hpre' : ∀ q ∈ prepared ++ [p],
        q.name ∈ (sourcesPersistBlock st (prepared ++ [p])).1.map (fun s => s.name) := by
      intro q hq
      rw [hspec.1]
      by_cases hp : p.name ∈ st.map (fun s => s.name)
      · rw [if_pos hp]
        rcases List.mem_append.mp hq with hq | hq
        · exact hpre q hq
        · simp only [List.mem_singleton] at hq
          rw [hq]
          exact hp
      · rw [if_neg hp]
        rcases List.mem_append.mp hq with hq | hq
        · exact List.mem_append.mpr (Or.inl (hpre q hq))
        · simp only [List.mem_singleton] at hq
          rw [hq]
          exact List.mem_append.mpr (Or.inr (by simp))
    have hres := ih (prepared ++ [p]) (sourcesPersistBlock st (prepared ++ [p])).1
      (c + (sourcesPersistBlock st (prepared ++ [p])).2.1)
      (u + (sourcesPersistBlock st (prepared ++ [p])).2.2)
      hnd' hpre' hspec.2
    rw [haux]
    have hassoc : prepared ++ [p] ++ rest' = prepared ++ p :: rest' := by
      rw [List.append_assoc]
      rfl
    rw [hassoc] at hres
    exact hres

/-- Counterexample for C3: in the sources pipeline a batch with a duplicated
natural key is **not** deduplicated before persistence — the persistence block
runs once per record on the growing prefix — so one key attributes one create
count **and** one update count (2 ≠ 1); and in the articles pipeline an
already-stored url is left with its old field values (no update path) and
attributes zero counts, not one. -/
theorem C3_dedup_counts_counterexample :
    (process_fetch_cycle_sources [] [sourceA1, sourceA2] = ([sourceA2], 1, 1)
      ∧ 1 + 1 ≠ 1) ∧
    (articles_persist [sampleArticle] [sampleArticleV2] = ([sampleArticle], 0)
      ∧ sampleArticle.title ≠ sampleArticleV2.title
      ∧ sampleArticle.url = sampleArticleV2.url) := by
  refine ⟨⟨?_, by decide⟩, ⟨?_, by decide, by decide⟩⟩ <;> decide

/-- C3 (amended): articles are deduplicated by url (last-write-wins) before
persistence — at most one stored entity per url, the stored entity for a url
not previously stored is the batch's last occurrence and each such url counts
exactly once in the stored count, while an already-stored url keeps its old
entity untouched and counts zero.  Sources are persisted incrementally with no
batch dedup: at most one stored entity per name still results and it finally
carries the last occurrence's field values, but counts may exceed one for a
duplicated name. -/
theorem C3_natural_key_dedup_amended :
    (∀ (B : List NormArticle) (k : String),
      ((uniqueByKey (fun x => x.url) B).map (fun x => x.url)).Nodup ∧
      lookupKey (fun x => x.url) k (uniqueByKey (fun x => x.url) B)
        = lastOcc (fun x => x.url) k B) ∧
    (∀ store B : List NormArticle, (store.map (fun x => x.url)).Nodup →
      ((articles_persist store B).1.map (fun x => x.url)).Nodup ∧
      (∀ k, k ∉ store.map (fun x => x.url) →
        lookupKey (fun x => x.url) k (articles_persist store B).1
          = lastOcc (fun x => x.url) k B) ∧
      (∀ k, k ∈ store.map (fun x => x.url) →
        lookupKey (fun x => x.url) k (articles_persist store B).1
          = lookupKey (fun x => x.url) k store) ∧
      (articles_persist store B).2
        = ((B.map (fun x => x.url)).dedup.filter
            (fun k => !(k ∈ store.map (fun x => x.url)))).length) ∧
    (∀ store batch : List SourceRec, (store.map (fun s => s.name)).Nodup →
      ((process_fetch_cycle_sources store batch).1.map (fun s => s.name)).Nodup ∧
      (∀ k, k ∈ batch.map (fun s => s.name) →
        lookupKey (fun s => s.name) k (process_fetch_cycle_sources store batch).1
          = lastOcc (fun s => s.name) k batch)) := by
  refine ⟨?_, ?_, ?_⟩
  · intro B k
    exact ⟨uniqueByKey_keys_nodup _ B, uniqueByKey_lookup _ B k⟩
  · intro store B hnd
    have hspec := articles_persist_spec store B
    refine ⟨?_, ?_, ?_, ?_⟩
    · rw [hspec]
      simp only [List.map_append, List.nodup_append]
      refine ⟨hnd, insertedBatch_keys_nodup store B, ?_⟩
      intro x hx hx2
      obtain ⟨a, ha, rfl⟩ := List.mem_map.mp hx2
      exact insertedBatch_disjoint store B a ha hx
    · intro k hk
      have hfl : lookupKey (fun x => x.url) k
          ((uniqueByKey (fun x => x.url) B).filter
            (fun a => !(a.url ∈ store.map (fun x => x.url))))
          = lookupKey (fun x => x.url) k (uniqueByKey (fun x => x.url) B) := by
        apply lookupKey_filter
        intro a _ hak
        have hak2 : a.url = k := hak
        rw [hak2, decide_eq_false hk]
        rfl
      rw [hspec]
      simp only []
      rw [lookupKey_append, (lookupKey_eq_none (fun x => x.url) k store).mpr hk,
        Option.none_or]
      simp only [insertedBatch]
      rw [hfl, uniqueByKey_lookup]
    · intro k hk
      rw [hspec]
      simp only []
      obtain ⟨a, ha⟩ := lookupKey_isSome (fun x => x.url) k store hk
      rw [lookupKey_append, ha, Option.or_some]
    · rw [hspec]
      simp only []
      have hperm : ((insertedBatch store B).map (fun x => x.url)).Perm
          ((B.map (fun x => x.url)).dedup.filter
            (fun k => !(k ∈ store.map (fun x => x.url)))) := by
        rw [List.perm_ext_iff_of_nodup (insertedBatch_keys_nodup store B)
          ((List.nodup_dedup _).filter _)]
        intro x
        constructor
        · intro hx
          obtain ⟨a, ha, rfl⟩ := List.mem_map.mp hx
          have h1 := List.mem_filter.mp ha
          have h2 : a.url ∉ store.map (fun x => x.url) := by
            simpa using h1.2
          rw [List.mem_filter, List.mem_dedup]
          refine ⟨?_, by simpa using h2⟩
          have := List.mem_map_of_mem (fun x : NormArticle => x.url) h1.1
          rwa [(uniqueByKey_keys_mem (fun x : NormArticle => x.url) B) a.url] at this
        · intro hx
          rw [List.mem_filter, List.mem_dedup] at hx
          obtain ⟨hx1, hx2⟩ := hx
          have hx2' : x ∉ store.map (fun x => x.url) := by
            simpa using hx2
          have hxu : x ∈ (uniqueByKey (fun x => x.url) B).map (fun x => x.url) :=
            (uniqueByKey_keys_mem (fun x : NormArticle => x.url) B x).mpr hx1
          obtain ⟨a, ha, rfl⟩ := List.mem_map.mp hxu
          apply List.mem_map_of_mem
          rw [insertedBatch, List.mem_filter]
          exact ⟨ha, by simpa using hx2'⟩
      have := hperm.length_eq
      rw [List.length_map] at this
      exact this
  · intro store batch hnd
    have hres := sourcesCycleAux_inv batch [] store 0 0 hnd (by simp) (by simp)
    rw [List.nil_append] at hres
    exact ⟨hres.1, hres.2.2⟩

/-- Witness for C3 (amended) at concrete stores and batches. -/
theorem C3_natural_key_dedup_amended_witness :
    lookupKey (fun x => x.url) sampleArticle.url
        (articles_persist [] [sampleArticle, sampleArticleV2]).1
      = lastOcc (fun x => x.url) sampleArticle.url [sampleArticle, sampleArticleV2] ∧
    ((process_fetch_cycle_sources [] [sourceA1, sourceA2]).1.map
        (fun s => s.name)).Nodup ∧
    lookupKey (fun s => s.name) "Example Wire"
        (process_fetch_cycle_sources [] [sourceA1, sourceA2]).1
      = lastOcc (fun s => s.name) "Example Wire" [sourceA1, sourceA2] :=
  ⟨((C3_natural_key_dedup_amended.2.1 [] [sampleArticle, sampleArticleV2]
      (by simp)).2.1) sampleArticle.url (by simp),
   (C3_natural_key_dedup_amended.2.2 [] [sourceA1, sourceA2] (by simp)).1,
   (C3_natural_key_dedup_amended.2.2 [] [sourceA1, sourceA2] (by simp)).2
     "Example Wire" (by decide)⟩

end NewsApp
